import Mathlib

/-!
Verification of the HoaLibrary-Light processing core (`Hoa_Rotate.hpp`,
`Hoa_Vector.hpp`): a shallow embedding of the `Rotate<Hoa2d, T>` and
`Vector<Hoa2d, T>` / `Vector<Hoa3d, T>` classes over exact real arithmetic.

Buffers handed to the C++ methods through raw pointers are modelled as total
functions `ℕ → ℝ`; a pointer is a base function together with an offset, and a
store through the pointer is `Function.update`.  The floating-point scalar type
`T` is modelled by `ℝ`.
-/

/-- Modelled from the spec: the macro `HOA_2PI` (from the headers outside this
excerpt), the constant two-pi used by `wrap_twopi`. -/
noncomputable def HOA_2PI : ℝ := 2 * Real.pi

/-- Modelled from the spec: `Signal<T>::sum`, an external reduction primitive
(`Hoa_Signal.hpp` is not part of this excerpt) that computes the sum of the
first `n` entries of a buffer. -/
noncomputable def Signal.sum (n : ℕ) (a : ℕ → ℝ) : ℝ := ∑ i ∈ Finset.range n, a i

/-- Modelled from the spec: `Signal<T>::dot`, an external reduction primitive
(`Hoa_Signal.hpp` is not part of this excerpt) that computes the dot product of
the first `n` entries of two buffers. -/
noncomputable def Signal.dot (n : ℕ) (a b : ℕ → ℝ) : ℝ :=
  ∑ i ∈ Finset.range n, a i * b i

/-- Modelled from the spec: the `ProcessorHarmonics` base-class constructor
(declared in `Hoa_Processor.hpp`, which is not part of this excerpt).  Per the
spec (§4.2, §7) construction requires `order ≥ 1`: an order of zero is rejected
when the instance is created, and otherwise the instance is bound to exactly
the given order, never clamped. -/
def ProcessorHarmonics.construct (order : ℕ) : Except String ℕ :=
  if order = 0 then Except.error "the order must be at least 1"
  else Except.ok order

/-- Modelled from the spec: the `ProcessorPlanewaves` base-class constructor
(declared in `Hoa_Planewaves.hpp`, which is not part of this excerpt).  Per the
spec (§4.1, §7) construction requires `numberOfChannels ≥ 1`: a channel count
of zero is rejected when the instance is created, and otherwise the instance is
bound to exactly the given channel count, never clamped. -/
def ProcessorPlanewaves.construct (numberOfChannels : ℕ) : Except String ℕ :=
  if numberOfChannels = 0 then Except.error "the number of channels must be at least 1"
  else Except.ok numberOfChannels

/-- The `Rotate<Hoa2d, T>` constructor: it only forwards the order to the
`ProcessorHarmonics` base-class constructor (its own body is empty). -/
def Rotate.construct (order : ℕ) : Except String ℕ :=
  ProcessorHarmonics.construct order

/-- The `Vector<Hoa2d, T>` / `Vector<Hoa3d, T>` constructor: it forwards the
channel count to the `ProcessorPlanewaves` base-class constructor and
allocates the internal caches (allocation is not observable in this model). -/
def Vector.construct (numberOfChannels : ℕ) : Except String ℕ :=
  ProcessorPlanewaves.construct numberOfChannels

/-- First `while` loop of `Rotate<Hoa2d, T>::wrap_twopi`: while the value is
negative, add `HOA_2PI`. -/
noncomputable def wrap_twopi_add (value : ℝ) : ℝ :=
  if h : value < 0 then wrap_twopi_add (value + HOA_2PI) else value
termination_by (Int.ceil (-value / HOA_2PI)).toNat
decreasing_by
  have h2 : (0:ℝ) < HOA_2PI := by simp only [HOA_2PI]; positivity
  have h4 : -(value + HOA_2PI) / HOA_2PI = -value / HOA_2PI - 1 := by
    rw [neg_add, ← sub_eq_add_neg, sub_div, div_self (ne_of_gt h2)]
  have h5 : 0 < Int.ceil (-value / HOA_2PI) :=
    Int.ceil_pos.mpr (div_pos (by linarith) h2)
  rw [h4, Int.ceil_sub_one]
  omega

/-- Second `while` loop of `Rotate<Hoa2d, T>::wrap_twopi`: while the value is
at least `HOA_2PI`, subtract `HOA_2PI`. -/
noncomputable def wrap_twopi_sub (value : ℝ) : ℝ :=
  if h : HOA_2PI ≤ value then wrap_twopi_sub (value - HOA_2PI) else value
termination_by (Int.floor (value / HOA_2PI)).toNat
decreasing_by
  have h2 : (0:ℝ) < HOA_2PI := by simp only [HOA_2PI]; positivity
  have h4 : (value - HOA_2PI) / HOA_2PI = value / HOA_2PI - 1 := by
    rw [sub_div, div_self (ne_of_gt h2)]
  have h5 : 1 ≤ Int.floor (value / HOA_2PI) := by
    rw [Int.le_floor]
    push_cast
    rw [le_div_iff h2]
    linarith
  rw [h4, Int.floor_sub_one]
  omega

/-- `Rotate<Hoa2d, T>::wrap_twopi`: the two sequential `while` loops, first
adding `HOA_2PI` while negative, then subtracting while at least `HOA_2PI`. -/
noncomputable def wrap_twopi (value : ℝ) : ℝ := wrap_twopi_sub (wrap_twopi_add value)

/-- The member state of `Rotate<Hoa2d, T>`: the decomposition order held by the
`ProcessorHarmonics` base and the fields `m_yaw`, `m_cosx`, `m_sinx`. -/
structure RotateState where
  order : ℕ
  m_yaw : ℝ
  m_cosx : ℝ
  m_sinx : ℝ

/-- `Rotate<Hoa2d, T>::setYaw`: store the yaw and cache its cosine and sine. -/
noncomputable def RotateState.setYaw (st : RotateState) (yaw : ℝ) : RotateState :=
  { st with m_yaw := yaw, m_cosx := Real.cos yaw, m_sinx := Real.sin yaw }

/-- `Rotate<Hoa2d, T>::getYaw`: return the stored yaw wrapped into `[0, 2π)`. -/
noncomputable def RotateState.getYaw (st : RotateState) : ℝ := wrap_twopi st.m_yaw

/-- The `for` loop of `Rotate<Hoa2d, T>::process`, iterating `i = 2 … order`
(`n` remaining iterations).  `mc`, `ms` are the member fields `m_cosx`,
`m_sinx`; `p` is the current pointer offset of both the input and the output
pointer (they advance in lockstep: two reads and two writes per iteration);
`cos_x`, `sin_x`, `tcos_x` are the local recurrence registers. -/
noncomputable def Rotate.loop (mc ms : ℝ) (ins : ℕ → ℝ) :
    ℕ → ℕ → ℝ → ℝ → ℝ → (ℕ → ℝ) → (ℕ → ℝ)
  | 0, _p, _cos_x, _sin_x, _tcos_x, outs => outs
  | n + 1, p, _cos_x, sin_x, tcos_x, outs =>
    let c := tcos_x * mc - sin_x * ms
    let s := tcos_x * ms + sin_x * mc
    let sig := ins p
    Rotate.loop mc ms ins n (p + 2) c s c
      (Function.update (Function.update outs p (s * ins (p + 1) + c * sig))
        (p + 1) (c * ins (p + 1) - s * sig))

/-- `Rotate<Hoa2d, T>::process` with separate input and output buffers: the
prelude copies the degree-0 harmonic and rotates the degree-1 pair with the
cached `m_cosx`, `m_sinx`; the loop handles degrees `2 … order`, the pointers
standing at offset 3 when it starts. -/
noncomputable def RotateState.process (st : RotateState) (ins outs : ℕ → ℝ) : ℕ → ℝ :=
  let cos_x := st.m_cosx
  let sin_x := st.m_sinx
  let tcos_x := cos_x
  let o0 := Function.update outs 0 (ins 0)
  let sig := ins 1
  let o1 := Function.update o0 1 (sin_x * ins 2 + cos_x * sig)
  let o2 := Function.update o1 2 (cos_x * ins 2 - sin_x * sig)
  Rotate.loop st.m_cosx st.m_sinx ins (st.order - 1) 3 cos_x sin_x tcos_x o2

/-- The `for` loop of `Rotate<Hoa2d, T>::process` when the output pointer
aliases the input pointer: every read (`sig := *inputs++`, `*inputs`) is taken
from the current contents of the single buffer, every write goes back into
it. -/
noncomputable def Rotate.loopInPlace (mc ms : ℝ) :
    ℕ → ℕ → ℝ → ℝ → ℝ → (ℕ → ℝ) → (ℕ → ℝ)
  | 0, _p, _cos_x, _sin_x, _tcos_x, buf => buf
  | n + 1, p, _cos_x, sin_x, tcos_x, buf =>
    let c := tcos_x * mc - sin_x * ms
    let s := tcos_x * ms + sin_x * mc
    let sig := buf p
    let b1 := Function.update buf p (s * buf (p + 1) + c * sig)
    let b2 := Function.update b1 (p + 1) (c * b1 (p + 1) - s * sig)
    Rotate.loopInPlace mc ms n (p + 2) c s c b2

/-- `Rotate<Hoa2d, T>::process` called with `outputs == inputs`: the same
statement sequence as `RotateState.process`, with every read taken from the
current contents of the single aliased buffer. -/
noncomputable def RotateState.processInPlace (st : RotateState) (buf : ℕ → ℝ) : ℕ → ℝ :=
  let cos_x := st.m_cosx
  let sin_x := st.m_sinx
  let tcos_x := cos_x
  let b0 := Function.update buf 0 (buf 0)
  let sig := b0 1
  let b1 := Function.update b0 1 (sin_x * b0 2 + cos_x * sig)
  let b2 := Function.update b1 2 (cos_x * b1 2 - sin_x * sig)
  Rotate.loopInPlace st.m_cosx st.m_sinx (st.order - 1) 3 cos_x sin_x tcos_x b2

/-- Pointer-offset trace of the `for` loop of `Rotate<Hoa2d, T>::process`:
first component the offsets written through the output pointer in order
(`*outputs++` twice per iteration), second component the offsets read through
the input pointer in order (`sig = *inputs++`, then `*inputs` in the first
store, then `*inputs++` in the second). -/
def Rotate.loopTrace : ℕ → ℕ → List ℕ × List ℕ
  | 0, _p => ([], [])
  | n + 1, p =>
    let r := Rotate.loopTrace n (p + 2)
    (p :: (p + 1) :: r.1, p :: (p + 1) :: (p + 1) :: r.2)

/-- Pointer-offset trace of the whole of `Rotate<Hoa2d, T>::process`: the
prelude writes offsets 0, 1, 2 and reads offsets 0, 1, 2, 2, then the loop
runs with both pointers at offset 3. -/
def Rotate.processTrace (order : ℕ) : List ℕ × List ℕ :=
  let r := Rotate.loopTrace (order - 1) 3
  (0 :: 1 :: 2 :: r.1, 0 :: 1 :: 2 :: 2 :: r.2)

/-! ### Helper lemmas about `wrap_twopi` -/

theorem wrap_twopi_add_nonneg (value : ℝ) : 0 ≤ wrap_twopi_add value := by
  induction value using wrap_twopi_add.induct with
  | case1 v h ih =>
    rw [wrap_twopi_add, dif_pos h]
    exact ih
  | case2 v h =>
    rw [wrap_twopi_add, dif_neg h]
    linarith

theorem wrap_twopi_add_shift (value : ℝ) :
    ∃ k : ℤ, wrap_twopi_add value = value + k * HOA_2PI := by
  induction value using wrap_twopi_add.induct with
  | case1 v h ih =>
    obtain ⟨k, hk⟩ := ih
    refine ⟨k + 1, ?_⟩
    rw [wrap_twopi_add, dif_pos h, hk]
    push_cast
    ring
  | case2 v h =>
    refine ⟨0, ?_⟩
    rw [wrap_twopi_add, dif_neg h]
    push_cast
    ring

theorem wrap_twopi_sub_lt (value : ℝ) : wrap_twopi_sub value < HOA_2PI := by
  induction value using wrap_twopi_sub.induct with
  | case1 v h ih =>
    rw [wrap_twopi_sub, dif_pos h]
    exact ih
  | case2 v h =>
    rw [wrap_twopi_sub, dif_neg h]
    linarith

theorem wrap_twopi_sub_nonneg (value : ℝ) (hv : 0 ≤ value) : 0 ≤ wrap_twopi_sub value := by
  induction value using wrap_twopi_sub.induct with
  | case1 v h ih =>
    have h2 : (0:ℝ) < HOA_2PI := by simp only [HOA_2PI]; positivity
    rw [wrap_twopi_sub, dif_pos h]
    exact ih (by linarith)
  | case2 v h =>
    rw [wrap_twopi_sub, dif_neg h]
    exact hv

theorem wrap_twopi_sub_shift (value : ℝ) :
    ∃ k : ℤ, wrap_twopi_sub value = value + k * HOA_2PI := by
  induction value using wrap_twopi_sub.induct with
  | case1 v h ih =>
    obtain ⟨k, hk⟩ := ih
    refine ⟨k - 1, ?_⟩
    rw [wrap_twopi_sub, dif_pos h, hk]
    push_cast
    ring
  | case2 v h =>
    refine ⟨0, ?_⟩
    rw [wrap_twopi_sub, dif_neg h]
    push_cast
    ring

theorem wrap_twopi_mem (value : ℝ) :
    0 ≤ wrap_twopi value ∧ wrap_twopi value < HOA_2PI := by
  refine ⟨wrap_twopi_sub_nonneg _ (wrap_twopi_add_nonneg value), wrap_twopi_sub_lt _⟩

theorem wrap_twopi_shift (value : ℝ) :
    ∃ k : ℤ, wrap_twopi value = value + k * HOA_2PI := by
  obtain ⟨k1, hk1⟩ := wrap_twopi_add_shift value
  obtain ⟨k2, hk2⟩ := wrap_twopi_sub_shift (wrap_twopi_add value)
  exact ⟨k1 + k2, by rw [wrap_twopi, hk2, hk1]; push_cast; ring⟩

theorem wrap_twopi_neg_pi : wrap_twopi (-Real.pi) = Real.pi := by
  have hpi : (0:ℝ) < Real.pi := Real.pi_pos
  have h1 : wrap_twopi_add (-Real.pi) = Real.pi := by
    rw [wrap_twopi_add, dif_pos (by linarith)]
    have e : -Real.pi + HOA_2PI = Real.pi := by simp only [HOA_2PI]; ring
    rw [e, wrap_twopi_add, dif_neg (by linarith)]
  rw [wrap_twopi, h1, wrap_twopi_sub, dif_neg (by simp only [HOA_2PI]; linarith)]

theorem wrap_twopi_five_pi : wrap_twopi (5 * Real.pi) = Real.pi := by
  have hpi : (0:ℝ) < Real.pi := Real.pi_pos
  have h1 : wrap_twopi_add (5 * Real.pi) = 5 * Real.pi := by
    rw [wrap_twopi_add, dif_neg (by linarith)]
  rw [wrap_twopi, h1, wrap_twopi_sub, dif_pos (by simp only [HOA_2PI]; linarith)]
  have e : 5 * Real.pi - HOA_2PI = 3 * Real.pi := by simp only [HOA_2PI]; ring
  rw [e, wrap_twopi_sub, dif_pos (by simp only [HOA_2PI]; linarith)]
  have e2 : 3 * Real.pi - HOA_2PI = Real.pi := by simp only [HOA_2PI]; ring
  rw [e2, wrap_twopi_sub, dif_neg (by simp only [HOA_2PI]; linarith)]

/-! ### Helper lemmas about the rotation recurrence -/

/-- One step of the angle recurrence of the `process` loop: from the register
pair `(tcos_x, sin_x)` to the freshly computed `(cos_x, sin_x)`. -/
noncomputable def csStep (mc ms : ℝ) (q : ℝ × ℝ) : ℝ × ℝ :=
  (q.1 * mc - q.2 * ms, q.1 * ms + q.2 * mc)

theorem csStep_iterate (yaw a : ℝ) (k : ℕ) :
    (csStep (Real.cos yaw) (Real.sin yaw))^[k] (Real.cos a, Real.sin a)
      = (Real.cos (a + k * yaw), Real.sin (a + k * yaw)) := by
  induction k with
  | zero => simp
  | succ k ih =>
    rw [Function.iterate_succ_apply', ih]
    have h1 : a + ((k + 1 : ℕ) : ℝ) * yaw = (a + (k : ℝ) * yaw) + yaw := by push_cast; ring
    rw [h1]
    simp only [csStep, Prod.mk.injEq, Real.cos_add (a + (k : ℝ) * yaw) yaw,
      Real.sin_add (a + (k : ℝ) * yaw) yaw]
    constructor <;> ring

theorem Rotate.loop_frame_lt (mc ms : ℝ) (ins : ℕ → ℝ) (n : ℕ) :
    ∀ (p : ℕ) (cx sx tx : ℝ) (outs : ℕ → ℝ) (j : ℕ), j < p →
      Rotate.loop mc ms ins n p cx sx tx outs j = outs j := by
  induction n with
  | zero => intro p cx sx tx outs j _; rfl
  | succ n ih =>
    intro p cx sx tx outs j hj
    simp only [Rotate.loop]
    rw [ih (p + 2) _ _ _ _ j (by omega)]
    rw [Function.update_noteq (by omega), Function.update_noteq (by omega)]

theorem Rotate.loop_deg (mc ms : ℝ) (ins : ℕ → ℝ) (n : ℕ) :
    ∀ (p : ℕ) (cx sx tx : ℝ) (outs : ℕ → ℝ) (k : ℕ), k < n →
      Rotate.loop mc ms ins n p cx sx tx outs (p + 2 * k)
          = ((csStep mc ms)^[k + 1] (tx, sx)).2 * ins (p + 2 * k + 1)
            + ((csStep mc ms)^[k + 1] (tx, sx)).1 * ins (p + 2 * k)
        ∧ Rotate.loop mc ms ins n p cx sx tx outs (p + 2 * k + 1)
          = ((csStep mc ms)^[k + 1] (tx, sx)).1 * ins (p + 2 * k + 1)
            - ((csStep mc ms)^[k + 1] (tx, sx)).2 * ins (p + 2 * k) := by
  induction n with
  | zero => intro p cx sx tx outs k hk; omega
  | succ n ih =>
    intro p cx sx tx outs k hk
    rcases Nat.eq_zero_or_pos k with hk0 | hkpos
    · subst hk0
      simp only [Rotate.loop]
      constructor
      · rw [Rotate.loop_frame_lt mc ms ins n (p + 2) _ _ _ _ (p + 2 * 0) (by omega)]
        rw [show p + 2 * 0 = p by ring]
        rw [Function.update_noteq (by omega), Function.update_same]
        simp [csStep]
      · rw [Rotate.loop_frame_lt mc ms ins n (p + 2) _ _ _ _ (p + 2 * 0 + 1) (by omega)]
        rw [show p + 2 * 0 + 1 = p + 1 by ring]
        rw [Function.update_same]
        simp [csStep]
    · obtain ⟨k0, rfl⟩ : ∃ k0, k = k0 + 1 := ⟨k - 1, by omega⟩
      simp only [Rotate.loop]
      have e1 : p + 2 * (k0 + 1) = (p + 2) + 2 * k0 := by ring
      have h2 := ih (p + 2) (tx * mc - sx * ms) (tx * ms + sx * mc) (tx * mc - sx * ms)
        (Function.update
          (Function.update outs p ((tx * ms + sx * mc) * ins (p + 1) + (tx * mc - sx * ms) * ins p))
          (p + 1) ((tx * mc - sx * ms) * ins (p + 1) - (tx * ms + sx * mc) * ins p))
        k0 (by omega)
      rw [e1]
      have e2 : (csStep mc ms)^[k0 + 1] (tx * mc - sx * ms, tx * ms + sx * mc)
          = (csStep mc ms)^[k0 + 1 + 1] (tx, sx) := by
        rw [Function.iterate_succ_apply]
        rfl
      rw [e2] at h2
      exact h2

theorem RotateState.process_zero (st : RotateState) (ins outs : ℕ → ℝ) :
    st.process ins outs 0 = ins 0 := by
  simp only [RotateState.process]
  rw [Rotate.loop_frame_lt _ _ _ _ _ _ _ _ _ 0 (by omega)]
  rw [Function.update_noteq (by omega), Function.update_noteq (by omega), Function.update_same]

theorem RotateState.process_deg (st : RotateState) (ins outs : ℕ → ℝ) (l : ℕ)
    (h1 : 1 ≤ l) (h2 : l ≤ st.order) :
    st.process ins outs (2 * l - 1)
        = ((csStep st.m_cosx st.m_sinx)^[l - 1] (st.m_cosx, st.m_sinx)).2 * ins (2 * l)
          + ((csStep st.m_cosx st.m_sinx)^[l - 1] (st.m_cosx, st.m_sinx)).1 * ins (2 * l - 1)
      ∧ st.process ins outs (2 * l)
        = ((csStep st.m_cosx st.m_sinx)^[l - 1] (st.m_cosx, st.m_sinx)).1 * ins (2 * l)
          - ((csStep st.m_cosx st.m_sinx)^[l - 1] (st.m_cosx, st.m_sinx)).2 * ins (2 * l - 1) := by
  rcases Nat.lt_or_ge l 2 with hl | hl
  · have hl1 : l = 1 := by omega
    subst hl1
    simp only [RotateState.process, Function.iterate_zero, id_eq]
    norm_num
    constructor
    · rw [Rotate.loop_frame_lt _ _ _ _ _ _ _ _ _ 1 (by omega)]
      rw [Function.update_noteq (by omega), Function.update_same]
    · rw [Rotate.loop_frame_lt _ _ _ _ _ _ _ _ _ 2 (by omega)]
      rw [Function.update_same]
  · have hk : l - 2 < st.order - 1 := by omega
    have h := Rotate.loop_deg st.m_cosx st.m_sinx ins (st.order - 1) 3
      st.m_cosx st.m_sinx st.m_cosx
      (Function.update (Function.update (Function.update outs 0 (ins 0)) 1
        (st.m_sinx * ins 2 + st.m_cosx * ins 1)) 2
        (st.m_cosx * ins 2 - st.m_sinx * ins 1))
      (l - 2) hk
    have e1 : 3 + 2 * (l - 2) = 2 * l - 1 := by omega
    have e2 : 3 + 2 * (l - 2) + 1 = 2 * l := by omega
    have e3 : l - 2 + 1 = l - 1 := by omega
    rw [e1, e3] at h
    rw [show 2 * l - 1 + 1 = 2 * l by omega] at h
    simp only [RotateState.process]
    exact h

theorem RotateState.process_setYaw_deg (st : RotateState) (yaw : ℝ) (ins outs : ℕ → ℝ)
    (l : ℕ) (h1 : 1 ≤ l) (h2 : l ≤ st.order) :
    (st.setYaw yaw).process ins outs (2 * l - 1)
        = Real.sin (l * yaw) * ins (2 * l) + Real.cos (l * yaw) * ins (2 * l - 1)
      ∧ (st.setYaw yaw).process ins outs (2 * l)
        = Real.cos (l * yaw) * ins (2 * l) - Real.sin (l * yaw) * ins (2 * l - 1) := by
  have h := RotateState.process_deg (st.setYaw yaw) ins outs l h1 h2
  have hc : (st.setYaw yaw).m_cosx = Real.cos yaw := rfl
  have hs : (st.setYaw yaw).m_sinx = Real.sin yaw := rfl
  rw [hc, hs, csStep_iterate yaw yaw (l - 1)] at h
  have e : yaw + ((l - 1 : ℕ) : ℝ) * yaw = (l : ℝ) * yaw := by
    have e0 : ((l - 1 : ℕ) : ℝ) = (l : ℝ) - 1 := by
      rw [Nat.cast_sub h1]
      norm_num
    rw [e0]
    ring
  rw [e] at h
  exact h

theorem RotateState.process_congr (st st' : RotateState) (h1 : st.order = st'.order)
    (h2 : st.m_cosx = st'.m_cosx) (h3 : st.m_sinx = st'.m_sinx) :
    st.process = st'.process := by
  funext ins outs
  simp only [RotateState.process]
  rw [h1, h2, h3]

/-! ### Claim theorems about `Rotate<Hoa2d, T>` -/

/-- C1: for every order ≥ 1, every yaw angle and every input buffer,
`Rotate<Hoa2d>::process` leaves the degree-0 harmonic unchanged, and for each
degree `l` from 1 to the order it produces
`outputs[-l] = sin(l·yaw)·inputs[l] + cos(l·yaw)·inputs[-l]` and
`outputs[l] = cos(l·yaw)·inputs[l] − sin(l·yaw)·inputs[-l]` (the pair being
stored at offsets `2l−1` and `2l`): the recurrence seeded by the `cos`/`sin`
cached by `setYaw` equals the direct per-degree rotation formulas over exact
real arithmetic. -/
theorem rotate_process_recurrence_matches_direct (st : RotateState) (yaw : ℝ)
    (h : 1 ≤ st.order) (ins outs : ℕ → ℝ) :
    (st.setYaw yaw).process ins outs 0 = ins 0 ∧
    ∀ l : ℕ, 1 ≤ l → l ≤ st.order →
      (st.setYaw yaw).process ins outs (2 * l - 1)
          = Real.sin (l * yaw) * ins (2 * l) + Real.cos (l * yaw) * ins (2 * l - 1)
        ∧ (st.setYaw yaw).process ins outs (2 * l)
          = Real.cos (l * yaw) * ins (2 * l) - Real.sin (l * yaw) * ins (2 * l - 1) :=
  ⟨RotateState.process_zero _ _ _,
    fun l h1 h2 => RotateState.process_setYaw_deg st yaw ins outs l h1 h2⟩

/-- Witness for C1 at order 1, yaw 0, inputs `j ↦ j`. -/
theorem rotate_process_recurrence_matches_direct_witness :
    ((RotateState.mk 1 0 1 0).setYaw 0).process (fun j => (j : ℝ)) (fun _ => 0) 0 = 0 := by
  have h := rotate_process_recurrence_matches_direct (RotateState.mk 1 0 1 0) 0
    (by norm_num) (fun j => (j : ℝ)) (fun _ => 0)
  simpa using h.1

/-- C6: for every angle passed to `setYaw` (of any magnitude or sign),
`getYaw` returns that angle normalized into `[0, 2π)` by the repeated
addition/subtraction of `2π` performed by `wrap_twopi`; the result differs
from the stored angle by an integer multiple of `2π`, and in particular
`setYaw(-π)` then `getYaw()` yields `π` and `setYaw(5π)` then `getYaw()`
yields `π`. -/
theorem rotate_getYaw_normalizes (st : RotateState) (yaw : ℝ) :
    (0 ≤ (st.setYaw yaw).getYaw ∧ (st.setYaw yaw).getYaw < 2 * Real.pi) ∧
    (∃ k : ℤ, (st.setYaw yaw).getYaw = yaw + k * (2 * Real.pi)) ∧
    (st.setYaw (-Real.pi)).getYaw = Real.pi ∧
    (st.setYaw (5 * Real.pi)).getYaw = Real.pi := by
  have hy : ∀ v : ℝ, (st.setYaw v).getYaw = wrap_twopi v := fun _ => rfl
  have h2pi : HOA_2PI = 2 * Real.pi := rfl
  refine ⟨?_, ?_, ?_, ?_⟩
  · have h := wrap_twopi_mem yaw
    rw [h2pi] at h
    rw [hy]
    exact h
  · obtain ⟨k, hk⟩ := wrap_twopi_shift yaw
    rw [h2pi] at hk
    exact ⟨k, by rw [hy]; exact hk⟩
  · rw [hy]
    exact wrap_twopi_neg_pi
  · rw [hy]
    exact wrap_twopi_five_pi

/-- C7: for every order ≥ 1, every harmonic buffer and every angle `θ`,
rotating by yaw `θ` and then rotating the result by yaw `−θ` (equivalently by
`2π − θ`) reproduces the original buffer on all `2·order + 1` harmonic
positions, exactly over real arithmetic. -/
theorem rotate_roundtrip (st : RotateState) (θ : ℝ) (h : 1 ≤ st.order)
    (ins b1 b2 : ℕ → ℝ) (j : ℕ) (hj : j < 2 * st.order + 1) :
    ((st.setYaw θ).setYaw (-θ)).process ((st.setYaw θ).process ins b1) b2 j = ins j ∧
    ((st.setYaw θ).setYaw (2 * Real.pi - θ)).process
        ((st.setYaw θ).process ins b1) b2 j = ins j := by
  have key : ((st.setYaw θ).setYaw (-θ)).process ((st.setYaw θ).process ins b1) b2 j
      = ins j := by
    rcases Nat.eq_zero_or_pos j with hj0 | hjpos
    · subst hj0
      rw [RotateState.process_zero, RotateState.process_zero]
    · obtain ⟨l, hl1, hl2, hlj⟩ : ∃ l, 1 ≤ l ∧ l ≤ st.order ∧ (j = 2 * l - 1 ∨ j = 2 * l) :=
        ⟨(j + 1) / 2, by omega, by omega, by omega⟩
      have hmid := RotateState.process_setYaw_deg st θ ins b1 l hl1 hl2
      have hout := RotateState.process_setYaw_deg (st.setYaw θ) (-θ)
        ((st.setYaw θ).process ins b1) b2 l hl1 hl2
      have hsc := Real.sin_sq_add_cos_sq ((l : ℝ) * θ)
      rcases hlj with rfl | rfl
      · rw [hout.1, hmid.1, hmid.2, mul_neg, Real.sin_neg, Real.cos_neg]
        linear_combination ins (2 * l - 1) * hsc
      · rw [hout.2, hmid.1, hmid.2, mul_neg, Real.sin_neg, Real.cos_neg]
        linear_combination ins (2 * l) * hsc
  have hfun : ((st.setYaw θ).setYaw (2 * Real.pi - θ)).process
      = ((st.setYaw θ).setYaw (-θ)).process := by
    apply RotateState.process_congr
    · rfl
    · show Real.cos (2 * Real.pi - θ) = Real.cos (-θ)
      rw [Real.cos_neg, Real.cos_two_pi_sub]
    · show Real.sin (2 * Real.pi - θ) = Real.sin (-θ)
      rw [Real.sin_neg, Real.sin_two_pi_sub]
  exact ⟨key, by rw [hfun]; exact key⟩

/-- Witness for C7 at order 1, θ = 0, position 0. -/
theorem rotate_roundtrip_witness :
    (((RotateState.mk 1 0 1 0).setYaw 0).setYaw (-0)).process
        (((RotateState.mk 1 0 1 0).setYaw 0).process (fun _ => (5 : ℝ)) (fun _ => 0))
        (fun _ => 0) 0 = 5 := by
  have h := rotate_roundtrip (RotateState.mk 1 0 1 0) 0 (by norm_num)
    (fun _ => (5 : ℝ)) (fun _ => 0) (fun _ => 0) 0 (by norm_num)
  exact h.1

theorem Rotate.loopInPlace_eq (mc ms : ℝ) (n : ℕ) :
    ∀ (p : ℕ) (cx sx tx : ℝ) (buf ins : ℕ → ℝ),
      (∀ j, p ≤ j → buf j = ins j) →
      Rotate.loopInPlace mc ms n p cx sx tx buf
        = Rotate.loop mc ms ins n p cx sx tx buf := by
  induction n with
  | zero => intro p cx sx tx buf ins _; rfl
  | succ n ih =>
    intro p cx sx tx buf ins hagree
    simp only [Rotate.loopInPlace, Rotate.loop]
    have e1 : buf p = ins p := hagree p (le_refl p)
    have e2 : ∀ v : ℝ, Function.update buf p v (p + 1) = buf (p + 1) := fun v =>
      Function.update_noteq (by omega) v buf
    rw [e2, e1]
    have e3 : buf (p + 1) = ins (p + 1) := hagree (p + 1) (by omega)
    rw [e3]
    apply ih
    intro j hj
    rw [Function.update_noteq (by omega), Function.update_noteq (by omega)]
    exact hagree j (by omega)

/-- C8: `Rotate<Hoa2d>::process` supports in-place operation: for every
order ≥ 1, yaw and buffer, running it with the output pointer aliasing the
input pointer produces exactly the buffer obtained from a run with a disjoint
output buffer, because each degree's input pair is read (into `sig` and within
the assignment) before the aliased positions are overwritten. -/
theorem rotate_process_in_place (st : RotateState) (yaw : ℝ) (h : 1 ≤ st.order)
    (buf : ℕ → ℝ) :
    (st.setYaw yaw).processInPlace buf = (st.setYaw yaw).process buf buf := by
  simp only [RotateState.processInPlace, RotateState.process]
  have e1 : Function.update buf 0 (buf 0) 1 = buf 1 :=
    Function.update_noteq (by omega) _ _
  have e2 : Function.update buf 0 (buf 0) 2 = buf 2 :=
    Function.update_noteq (by omega) _ _
  rw [e1, e2]
  have e3 : ∀ v : ℝ, Function.update (Function.update buf 0 (buf 0)) 1 v 2 = buf 2 := by
    intro v
    rw [Function.update_noteq (by omega), Function.update_noteq (by omega)]
  rw [e3]
  apply Rotate.loopInPlace_eq
  intro j hj
  rw [Function.update_noteq (by omega), Function.update_noteq (by omega),
    Function.update_noteq (by omega)]

/-- Witness for C8 at order 1, yaw 0, the zero buffer. -/
theorem rotate_process_in_place_witness :
    ((RotateState.mk 1 0 1 0).setYaw 0).processInPlace (fun _ => 0)
      = ((RotateState.mk 1 0 1 0).setYaw 0).process (fun _ => 0) (fun _ => 0) :=
  rotate_process_in_place (RotateState.mk 1 0 1 0) 0 (by norm_num) (fun _ => 0)

theorem Rotate.loopTrace_fst (n : ℕ) : ∀ p, (Rotate.loopTrace n p).1 = List.range' p (2 * n) := by
  induction n with
  | zero => intro p; rfl
  | succ n ih =>
    intro p
    simp only [Rotate.loopTrace]
    rw [ih]
    rw [show 2 * (n + 1) = (2 * n + 1) + 1 by ring]
    rw [List.range'_succ, List.range'_succ]

theorem Rotate.loopTrace_snd_mem (n : ℕ) :
    ∀ p j, (j ∈ (Rotate.loopTrace n p).2 ↔ p ≤ j ∧ j < p + 2 * n) := by
  induction n with
  | zero =>
    intro p j
    simp only [Rotate.loopTrace, List.not_mem_nil, false_iff]
    omega
  | succ n ih =>
    intro p j
    simp only [Rotate.loopTrace, List.mem_cons, ih]
    omega

/-- C10: `Rotate<Hoa2d>::process` writes exactly the output offsets
`0 … 2·order` in order, each exactly once, and the set of input offsets it
reads is exactly `0 … 2·order`, so with order ≥ 1 and buffers of length
`2·order + 1` every access is in bounds; the precondition is necessary: at
order 0 the code still accesses input offsets 1 and 2 and output offsets 1
and 2 before its loop. -/
theorem rotate_process_access_trace (order : ℕ) :
    (1 ≤ order →
      (Rotate.processTrace order).1 = List.range (2 * order + 1) ∧
      (Rotate.processTrace order).1.Nodup ∧
      (∀ j, j ∈ (Rotate.processTrace order).2 ↔ j < 2 * order + 1) ∧
      (∀ j ∈ (Rotate.processTrace order).1, j < 2 * order + 1)) ∧
    (1 ∈ (Rotate.processTrace 0).1 ∧ 2 ∈ (Rotate.processTrace 0).1 ∧
      1 ∈ (Rotate.processTrace 0).2 ∧ 2 ∈ (Rotate.processTrace 0).2) := by
  constructor
  · intro h
    have hw : (Rotate.processTrace order).1 = List.range (2 * order + 1) := by
      simp only [Rotate.processTrace, Rotate.loopTrace_fst]
      rw [List.range_eq_range']
      rw [show 2 * order + 1 = ((2 * (order - 1) + 1) + 1) + 1 by omega]
      rw [List.range'_succ, List.range'_succ, List.range'_succ]
    refine ⟨hw, ?_, ?_, ?_⟩
    · rw [hw]
      exact List.nodup_range _
    · intro j
      simp only [Rotate.processTrace, List.mem_cons, Rotate.loopTrace_snd_mem]
      omega
    · intro j hj
      rw [hw, List.mem_range] at hj
      exact hj
  · refine ⟨?_, ?_, ?_, ?_⟩ <;> decide

/-- Witness for C10 at order 1. -/
theorem rotate_process_access_trace_witness :
    (Rotate.processTrace 1).1 = List.range (2 * 1 + 1) :=
  ((rotate_process_access_trace 1).1 (by norm_num)).1

/-! ### Embedding of `Vector<Hoa2d, T>` and `Vector<Hoa3d, T>`

The direction caches `m_channels_abscissa`, `m_channels_ordinate` (and
`m_channels_height` for 3-D) and the scratch buffer `m_channels_square` are
buffers of length `numberOfPlanewaves`; the output pointer is modelled by the
buffer `outs` together with the offset `op`. -/

/-- `Vector<Hoa2d, T>::processVelocity`: the running sum starts from
`inputs[0]` and adds `inputs[1 … n−1]`, the numerators are `Signal::dot`
products with the direction caches, and the division is guarded by the
exact-zero comparison `if(veclocitySum)`. -/
noncomputable def Vector2.processVelocity (n : ℕ)
    (m_channels_abscissa m_channels_ordinate : ℕ → ℝ)
    (ins outs : ℕ → ℝ) (op : ℕ) : ℕ → ℝ :=
  let veclocitySum := List.foldl (fun acc i => acc + ins i) (ins 0) (List.range' 1 (n - 1))
  let velocityAbscissa := Signal.dot n ins m_channels_abscissa
  let velocityOrdinate := Signal.dot n ins m_channels_ordinate
  if veclocitySum ≠ 0 then
    Function.update (Function.update outs op (velocityAbscissa / veclocitySum))
      (op + 1) (velocityOrdinate / veclocitySum)
  else
    Function.update (Function.update outs (op + 1) 0) op 0

/-- `Vector<Hoa2d, T>::processEnergy`: squares the samples into the scratch
buffer `m_channels_square` (entry 0 through the dereference, entries
`1 … n−1` in the loop), reduces with `Signal::sum` and `Signal::dot`, and
guards the division by the exact-zero comparison `if(energySum)`.  Returns the
new scratch buffer and the new output buffer. -/
noncomputable def Vector2.processEnergy (n : ℕ)
    (m_channels_abscissa m_channels_ordinate : ℕ → ℝ)
    (m_channels_square ins outs : ℕ → ℝ) (op : ℕ) : (ℕ → ℝ) × (ℕ → ℝ) :=
  let square := List.foldl (fun sq i => Function.update sq i (ins i * ins i))
    (Function.update m_channels_square 0 (ins 0 * ins 0)) (List.range' 1 (n - 1))
  let energySum := Signal.sum n square
  let energyAbscissa := Signal.dot n square m_channels_abscissa
  let energyOrdinate := Signal.dot n square m_channels_ordinate
  if energySum ≠ 0 then
    (square, Function.update (Function.update outs op (energyAbscissa / energySum))
      (op + 1) (energyOrdinate / energySum))
  else
    (square, Function.update (Function.update outs (op + 1) 0) op 0)

/-- `Vector<Hoa2d, T>::process`: velocity into the output pointer, energy into
the output pointer advanced by 2. -/
noncomputable def Vector2.process (n : ℕ)
    (m_channels_abscissa m_channels_ordinate : ℕ → ℝ)
    (m_channels_square ins outs : ℕ → ℝ) (op : ℕ) : (ℕ → ℝ) × (ℕ → ℝ) :=
  let o1 := Vector2.processVelocity n m_channels_abscissa m_channels_ordinate ins outs op
  Vector2.processEnergy n m_channels_abscissa m_channels_ordinate
    m_channels_square ins o1 (op + 2)

/-- `Vector<Hoa3d, T>::processVelocity`: as in 2-D with the additional height
cache and output slot. -/
noncomputable def Vector3.processVelocity (n : ℕ)
    (m_channels_abscissa m_channels_ordinate m_channels_height : ℕ → ℝ)
    (ins outs : ℕ → ℝ) (op : ℕ) : ℕ → ℝ :=
  let veclocitySum := List.foldl (fun acc i => acc + ins i) (ins 0) (List.range' 1 (n - 1))
  let velocityAbscissa := Signal.dot n ins m_channels_abscissa
  let velocityOrdinate := Signal.dot n ins m_channels_ordinate
  let velocityHeight := Signal.dot n ins m_channels_height
  if veclocitySum ≠ 0 then
    Function.update (Function.update (Function.update outs op (velocityAbscissa / veclocitySum))
      (op + 1) (velocityOrdinate / veclocitySum)) (op + 2) (velocityHeight / veclocitySum)
  else
    Function.update (Function.update (Function.update outs (op + 2) 0) (op + 1) 0) op 0

/-- `Vector<Hoa3d, T>::processEnergy`: as in 2-D with the additional height
cache and output slot. -/
noncomputable def Vector3.processEnergy (n : ℕ)
    (m_channels_abscissa m_channels_ordinate m_channels_height : ℕ → ℝ)
    (m_channels_square ins outs : ℕ → ℝ) (op : ℕ) : (ℕ → ℝ) × (ℕ → ℝ) :=
  let square := List.foldl (fun sq i => Function.update sq i (ins i * ins i))
    (Function.update m_channels_square 0 (ins 0 * ins 0)) (List.range' 1 (n - 1))
  let energySum := Signal.sum n square
  let energyAbscissa := Signal.dot n square m_channels_abscissa
  let energyOrdinate := Signal.dot n square m_channels_ordinate
  let energyHeight := Signal.dot n square m_channels_height
  if energySum ≠ 0 then
    (square, Function.update (Function.update (Function.update outs op
      (energyAbscissa / energySum)) (op + 1) (energyOrdinate / energySum))
      (op + 2) (energyHeight / energySum))
  else
    (square, Function.update (Function.update (Function.update outs (op + 2) 0) (op + 1) 0) op 0)

/-- `Vector<Hoa3d, T>::process`: velocity into the output pointer, energy into
the output pointer advanced by 3. -/
noncomputable def Vector3.process (n : ℕ)
    (m_channels_abscissa m_channels_ordinate m_channels_height : ℕ → ℝ)
    (m_channels_square ins outs : ℕ → ℝ) (op : ℕ) : (ℕ → ℝ) × (ℕ → ℝ) :=
  let o1 := Vector3.processVelocity n m_channels_abscissa m_channels_ordinate
    m_channels_height ins outs op
  Vector3.processEnergy n m_channels_abscissa m_channels_ordinate m_channels_height
    m_channels_square ins o1 (op + 3)

/-! ### Helper lemmas about the `Vector` reductions -/

theorem foldl_add_apply (ins : ℕ → ℝ) (l : List ℕ) :
    ∀ a : ℝ, List.foldl (fun acc i => acc + ins i) a l = a + (l.map ins).sum := by
  induction l with
  | nil => intro a; simp
  | cons x xs ih =>
    intro a
    simp only [List.foldl_cons, List.map_cons, List.sum_cons, ih]
    ring

theorem veclocitySum_eq_sum (ins : ℕ → ℝ) (n : ℕ) (h : 1 ≤ n) :
    List.foldl (fun acc i => acc + ins i) (ins 0) (List.range' 1 (n - 1))
      = ∑ i ∈ Finset.range n, ins i := by
  obtain ⟨m, rfl⟩ : ∃ m, n = m + 1 := ⟨n - 1, by omega⟩
  induction m with
  | zero => simp
  | succ m ih =>
    rw [show m + 1 + 1 - 1 = m + 1 by omega, List.range'_concat]
    rw [List.foldl_append]
    simp only [List.foldl_cons, List.foldl_nil]
    rw [show m + 1 - 1 = m from rfl] at ih
    rw [ih (by omega)]
    rw [show 1 + 1 * m = m + 1 by omega]
    rw [Finset.sum_range_succ (fun i => ins i) (m + 1)]

theorem foldl_update_apply (f : ℕ → ℝ) (l : List ℕ) :
    ∀ (s0 : ℕ → ℝ) (j : ℕ),
      List.foldl (fun sq i => Function.update sq i (f i)) s0 l j
        = if j ∈ l then f j else s0 j := by
  induction l with
  | nil => intro s0 j; simp
  | cons x xs ih =>
    intro s0 j
    simp only [List.foldl_cons, List.mem_cons]
    rw [ih]
    by_cases hj : j ∈ xs
    · simp [hj]
    · by_cases hx : j = x
      · subst hx
        simp [hj, Function.update_same]
      · simp [hj, hx, Function.update_noteq hx]

theorem square_apply (ins sq : ℕ → ℝ) (n : ℕ) (h : 1 ≤ n) (j : ℕ) :
    List.foldl (fun s i => Function.update s i (ins i * ins i))
      (Function.update sq 0 (ins 0 * ins 0)) (List.range' 1 (n - 1)) j
      = if j < n then ins j * ins j else sq j := by
  rw [foldl_update_apply]
  rcases Nat.eq_zero_or_pos j with hj0 | hjpos
  · subst hj0
    simp only [List.mem_range'_1]
    rw [if_neg (by omega), Function.update_same, if_pos (by omega)]
  · simp only [List.mem_range'_1]
    by_cases hjn : j < n
    · rw [if_pos (by omega), if_pos hjn]
    · rw [if_neg (by omega), Function.update_noteq (by omega), if_neg hjn]

theorem square_sum_eq (ins sq : ℕ → ℝ) (n : ℕ) (h : 1 ≤ n) :
    Signal.sum n (List.foldl (fun s i => Function.update s i (ins i * ins i))
        (Function.update sq 0 (ins 0 * ins 0)) (List.range' 1 (n - 1)))
      = ∑ i ∈ Finset.range n, ins i * ins i := by
  unfold Signal.sum
  apply Finset.sum_congr rfl
  intro i hi
  rw [Finset.mem_range] at hi
  rw [square_apply ins sq n h i, if_pos hi]

theorem square_dot_eq (ins sq c : ℕ → ℝ) (n : ℕ) (h : 1 ≤ n) :
    Signal.dot n (List.foldl (fun s i => Function.update s i (ins i * ins i))
        (Function.update sq 0 (ins 0 * ins 0)) (List.range' 1 (n - 1))) c
      = ∑ i ∈ Finset.range n, (ins i * ins i) * c i := by
  unfold Signal.dot
  apply Finset.sum_congr rfl
  intro i hi
  rw [Finset.mem_range] at hi
  rw [square_apply ins sq n h i, if_pos hi]

theorem processVelocity2_apply (n : ℕ) (h : 1 ≤ n)
    (ca co ins outs : ℕ → ℝ) (op : ℕ) :
    Vector2.processVelocity n ca co ins outs op op
        = (if (∑ i ∈ Finset.range n, ins i) ≠ 0
            then (∑ i ∈ Finset.range n, ins i * ca i) / (∑ i ∈ Finset.range n, ins i)
            else 0) ∧
    Vector2.processVelocity n ca co ins outs op (op + 1)
        = (if (∑ i ∈ Finset.range n, ins i) ≠ 0
            then (∑ i ∈ Finset.range n, ins i * co i) / (∑ i ∈ Finset.range n, ins i)
            else 0) ∧
    (∀ j, j ≠ op → j ≠ op + 1 → Vector2.processVelocity n ca co ins outs op j = outs j) := by
  simp only [Vector2.processVelocity, veclocitySum_eq_sum ins n h, Signal.dot]
  by_cases h0 : (∑ i ∈ Finset.range n, ins i) = 0
  · rw [if_neg (not_not_intro h0), if_neg (not_not_intro h0), if_neg (not_not_intro h0)]
    refine ⟨?_, ?_, ?_⟩
    · rw [Function.update_same]
    · rw [Function.update_noteq (by omega), Function.update_same]
    · intro j hj1 hj2
      rw [Function.update_noteq hj1, Function.update_noteq hj2]
  · rw [if_pos h0, if_pos h0, if_pos h0]
    refine ⟨?_, ?_, ?_⟩
    · rw [Function.update_noteq (by omega), Function.update_same]
    · rw [Function.update_same]
    · intro j hj1 hj2
      rw [Function.update_noteq hj2, Function.update_noteq hj1]

theorem processVelocity3_apply (n : ℕ) (h : 1 ≤ n)
    (ca co ch ins outs : ℕ → ℝ) (op : ℕ) :
    Vector3.processVelocity n ca co ch ins outs op op
        = (if (∑ i ∈ Finset.range n, ins i) ≠ 0
            then (∑ i ∈ Finset.range n, ins i * ca i) / (∑ i ∈ Finset.range n, ins i)
            else 0) ∧
    Vector3.processVelocity n ca co ch ins outs op (op + 1)
        = (if (∑ i ∈ Finset.range n, ins i) ≠ 0
            then (∑ i ∈ Finset.range n, ins i * co i) / (∑ i ∈ Finset.range n, ins i)
            else 0) ∧
    Vector3.processVelocity n ca co ch ins outs op (op + 2)
        = (if (∑ i ∈ Finset.range n, ins i) ≠ 0
            then (∑ i ∈ Finset.range n, ins i * ch i) / (∑ i ∈ Finset.range n, ins i)
            else 0) ∧
    (∀ j, j ≠ op → j ≠ op + 1 → j ≠ op + 2 →
      Vector3.processVelocity n ca co ch ins outs op j = outs j) := by
  simp only [Vector3.processVelocity, veclocitySum_eq_sum ins n h, Signal.dot]
  by_cases h0 : (∑ i ∈ Finset.range n, ins i) = 0
  · rw [if_neg (not_not_intro h0), if_neg (not_not_intro h0), if_neg (not_not_intro h0),
      if_neg (not_not_intro h0)]
    refine ⟨?_, ?_, ?_, ?_⟩
    · rw [Function.update_same]
    · rw [Function.update_noteq (by omega), Function.update_same]
    · rw [Function.update_noteq (by omega), Function.update_noteq (by omega),
        Function.update_same]
    · intro j hj1 hj2 hj3
      rw [Function.update_noteq hj1, Function.update_noteq hj2, Function.update_noteq hj3]
  · rw [if_pos h0, if_pos h0, if_pos h0, if_pos h0]
    refine ⟨?_, ?_, ?_, ?_⟩
    · rw [Function.update_noteq (by omega), Function.update_noteq (by omega),
        Function.update_same]
    · rw [Function.update_noteq (by omega), Function.update_same]
    · rw [Function.update_same]
    · intro j hj1 hj2 hj3
      rw [Function.update_noteq hj3, Function.update_noteq hj2, Function.update_noteq hj1]

theorem processEnergy2_apply (n : ℕ) (h : 1 ≤ n)
    (ca co sq ins outs : ℕ → ℝ) (op : ℕ) :
    (∀ j, (Vector2.processEnergy n ca co sq ins outs op).1 j
        = if j < n then ins j * ins j else sq j) ∧
    (Vector2.processEnergy n ca co sq ins outs op).2 op
        = (if (∑ i ∈ Finset.range n, ins i * ins i) ≠ 0
            then (∑ i ∈ Finset.range n, ins i * ins i * ca i)
              / (∑ i ∈ Finset.range n, ins i * ins i)
            else 0) ∧
    (Vector2.processEnergy n ca co sq ins outs op).2 (op + 1)
        = (if (∑ i ∈ Finset.range n, ins i * ins i) ≠ 0
            then (∑ i ∈ Finset.range n, ins i * ins i * co i)
              / (∑ i ∈ Finset.range n, ins i * ins i)
            else 0) ∧
    (∀ j, j ≠ op → j ≠ op + 1 →
      (Vector2.processEnergy n ca co sq ins outs op).2 j = outs j) := by
  simp only [Vector2.processEnergy, square_sum_eq ins sq n h,
    square_dot_eq ins sq ca n h, square_dot_eq ins sq co n h]
  by_cases h0 : (∑ i ∈ Finset.range n, ins i * ins i) = 0
  · rw [if_neg (not_not_intro h0)]
    refine ⟨?_, ?_, ?_, ?_⟩
    · intro j
      exact square_apply ins sq n h j
    · rw [if_neg (not_not_intro h0)]
      dsimp only
      rw [Function.update_same]
    · rw [if_neg (not_not_intro h0)]
      dsimp only
      rw [Function.update_noteq (by omega), Function.update_same]
    · intro j hj1 hj2
      dsimp only
      rw [Function.update_noteq hj1, Function.update_noteq hj2]
  · rw [if_pos h0]
    refine ⟨?_, ?_, ?_, ?_⟩
    · intro j
      exact square_apply ins sq n h j
    · rw [if_pos h0]
      dsimp only
      rw [Function.update_noteq (by omega), Function.update_same]
    · rw [if_pos h0]
      dsimp only
      rw [Function.update_same]
    · intro j hj1 hj2
      dsimp only
      rw [Function.update_noteq hj2, Function.update_noteq hj1]

theorem processEnergy3_apply (n : ℕ) (h : 1 ≤ n)
    (ca co ch sq ins outs : ℕ → ℝ) (op : ℕ) :
    (∀ j, (Vector3.processEnergy n ca co ch sq ins outs op).1 j
        = if j < n then ins j * ins j else sq j) ∧
    (Vector3.processEnergy n ca co ch sq ins outs op).2 op
        = (if (∑ i ∈ Finset.range n, ins i * ins i) ≠ 0
            then (∑ i ∈ Finset.range n, ins i * ins i * ca i)
              / (∑ i ∈ Finset.range n, ins i * ins i)
            else 0) ∧
    (Vector3.processEnergy n ca co ch sq ins outs op).2 (op + 1)
        = (if (∑ i ∈ Finset.range n, ins i * ins i) ≠ 0
            then (∑ i ∈ Finset.range n, ins i * ins i * co i)
              / (∑ i ∈ Finset.range n, ins i * ins i)
            else 0) ∧
    (Vector3.processEnergy n ca co ch sq ins outs op).2 (op + 2)
        = (if (∑ i ∈ Finset.range n, ins i * ins i) ≠ 0
            then (∑ i ∈ Finset.range n, ins i * ins i * ch i)
              / (∑ i ∈ Finset.range n, ins i * ins i)
            else 0) ∧
    (∀ j, j ≠ op → j ≠ op + 1 → j ≠ op + 2 →
      (Vector3.processEnergy n ca co ch sq ins outs op).2 j = outs j) := by
  simp only [Vector3.processEnergy, square_sum_eq ins sq n h,
    square_dot_eq ins sq ca n h, square_dot_eq ins sq co n h, square_dot_eq ins sq ch n h]
  by_cases h0 : (∑ i ∈ Finset.range n, ins i * ins i) = 0
  · rw [if_neg (not_not_intro h0)]
    refine ⟨?_, ?_, ?_, ?_, ?_⟩
    · intro j
      exact square_apply ins sq n h j
    · rw [if_neg (not_not_intro h0)]
      dsimp only
      rw [Function.update_same]
    · rw [if_neg (not_not_intro h0)]
      dsimp only
      rw [Function.update_noteq (by omega), Function.update_same]
    · rw [if_neg (not_not_intro h0)]
      dsimp only
      rw [Function.update_noteq (by omega), Function.update_noteq (by omega),
        Function.update_same]
    · intro j hj1 hj2 hj3
      dsimp only
      rw [Function.update_noteq hj1, Function.update_noteq hj2, Function.update_noteq hj3]
  · rw [if_pos h0]
    refine ⟨?_, ?_, ?_, ?_, ?_⟩
    · intro j
      exact square_apply ins sq n h j
    · rw [if_pos h0]
      dsimp only
      rw [Function.update_noteq (by omega), Function.update_noteq (by omega),
        Function.update_same]
    · rw [if_pos h0]
      dsimp only
      rw [Function.update_noteq (by omega), Function.update_same]
    · rw [if_pos h0]
      dsimp only
      rw [Function.update_same]
    · intro j hj1 hj2 hj3
      dsimp only
      rw [Function.update_noteq hj3, Function.update_noteq hj2, Function.update_noteq hj1]

/-! ### Claim theorems about `Vector<Hoa2d, T>` and `Vector<Hoa3d, T>` -/

/-- C2: for every channel count n ≥ 1 and input vector, `processVelocity`
computes the sample sum and per-axis dot-product numerators over the direction
caches; when the sum is non-zero (exact comparison) every output axis is the
numerator divided by the sum, and when the sum is zero every output axis is
set to 0 — in both the 2-axis and the 3-axis variant. -/
theorem vector_processVelocity_spec (n : ℕ) (h : 1 ≤ n)
    (ca co ch ins outs outs3 : ℕ → ℝ) (op : ℕ) :
    ((∑ i ∈ Finset.range n, ins i) ≠ 0 →
      Vector2.processVelocity n ca co ins outs op op
          = (∑ i ∈ Finset.range n, ins i * ca i) / (∑ i ∈ Finset.range n, ins i) ∧
      Vector2.processVelocity n ca co ins outs op (op + 1)
          = (∑ i ∈ Finset.range n, ins i * co i) / (∑ i ∈ Finset.range n, ins i) ∧
      Vector3.processVelocity n ca co ch ins outs3 op op
          = (∑ i ∈ Finset.range n, ins i * ca i) / (∑ i ∈ Finset.range n, ins i) ∧
      Vector3.processVelocity n ca co ch ins outs3 op (op + 1)
          = (∑ i ∈ Finset.range n, ins i * co i) / (∑ i ∈ Finset.range n, ins i) ∧
      Vector3.processVelocity n ca co ch ins outs3 op (op + 2)
          = (∑ i ∈ Finset.range n, ins i * ch i) / (∑ i ∈ Finset.range n, ins i)) ∧
    ((∑ i ∈ Finset.range n, ins i) = 0 →
      Vector2.processVelocity n ca co ins outs op op = 0 ∧
      Vector2.processVelocity n ca co ins outs op (op + 1) = 0 ∧
      Vector3.processVelocity n ca co ch ins outs3 op op = 0 ∧
      Vector3.processVelocity n ca co ch ins outs3 op (op + 1) = 0 ∧
      Vector3.processVelocity n ca co ch ins outs3 op (op + 2) = 0) := by
  have h2 := processVelocity2_apply n h ca co ins outs op
  have h3 := processVelocity3_apply n h ca co ch ins outs3 op
  constructor
  · intro hs
    rw [h2.1, h2.2.1, h3.1, h3.2.1, h3.2.2.1]
    simp [if_pos hs]
  · intro hs
    rw [h2.1, h2.2.1, h3.1, h3.2.1, h3.2.2.1]
    simp [if_neg (not_not_intro hs)]

/-- Witness for C2 at n = 1 with a zero input vector (sum 0 → zero outputs). -/
theorem vector_processVelocity_spec_witness :
    Vector2.processVelocity 1 (fun _ => 0) (fun _ => 0) (fun _ => 0) (fun _ => 0) 0 0 = 0 := by
  have h := (vector_processVelocity_spec 1 (by norm_num) (fun _ => 0) (fun _ => 0)
    (fun _ => 0) (fun _ => 0) (fun _ => 0) (fun _ => 0) 0).2 (by simp)
  exact h.1

/-- C3: for every channel count n ≥ 1 and input vector, `processEnergy`
squares the samples into the scratch buffer, sums them, and forms the per-axis
dot products against the direction caches; when the energy sum is non-zero
(exact comparison) each output axis is the numerator divided by the energy sum,
and when the energy sum is zero (in particular for the all-zero input) every
output axis is set to 0, the division being guarded — in both the 2-axis and
the 3-axis variant. -/
theorem vector_processEnergy_spec (n : ℕ) (h : 1 ≤ n)
    (ca co ch sq2 sq3 ins outs outs3 : ℕ → ℝ) (op : ℕ) :
    (∀ i, i < n →
      (Vector2.processEnergy n ca co sq2 ins outs op).1 i = ins i * ins i ∧
      (Vector3.processEnergy n ca co ch sq3 ins outs3 op).1 i = ins i * ins i) ∧
    ((∑ i ∈ Finset.range n, ins i * ins i) ≠ 0 →
      (Vector2.processEnergy n ca co sq2 ins outs op).2 op
          = (∑ i ∈ Finset.range n, ins i * ins i * ca i)
            / (∑ i ∈ Finset.range n, ins i * ins i) ∧
      (Vector2.processEnergy n ca co sq2 ins outs op).2 (op + 1)
          = (∑ i ∈ Finset.range n, ins i * ins i * co i)
            / (∑ i ∈ Finset.range n, ins i * ins i) ∧
      (Vector3.processEnergy n ca co ch sq3 ins outs3 op).2 op
          = (∑ i ∈ Finset.range n, ins i * ins i * ca i)
            / (∑ i ∈ Finset.range n, ins i * ins i) ∧
      (Vector3.processEnergy n ca co ch sq3 ins outs3 op).2 (op + 1)
          = (∑ i ∈ Finset.range n, ins i * ins i * co i)
            / (∑ i ∈ Finset.range n, ins i * ins i) ∧
      (Vector3.processEnergy n ca co ch sq3 ins outs3 op).2 (op + 2)
          = (∑ i ∈ Finset.range n, ins i * ins i * ch i)
            / (∑ i ∈ Finset.range n, ins i * ins i)) ∧
    ((∑ i ∈ Finset.range n, ins i * ins i) = 0 →
      (Vector2.processEnergy n ca co sq2 ins outs op).2 op = 0 ∧
      (Vector2.processEnergy n ca co sq2 ins outs op).2 (op + 1) = 0 ∧
      (Vector3.processEnergy n ca co ch sq3 ins outs3 op).2 op = 0 ∧
      (Vector3.processEnergy n ca co ch sq3 ins outs3 op).2 (op + 1) = 0 ∧
      (Vector3.processEnergy n ca co ch sq3 ins outs3 op).2 (op + 2) = 0) := by
  have h2 := processEnergy2_apply n h ca co sq2 ins outs op
  have h3 := processEnergy3_apply n h ca co ch sq3 ins outs3 op
  refine ⟨?_, ?_, ?_⟩
  · intro i hi
    constructor
    · rw [h2.1 i, if_pos hi]
    · rw [h3.1 i, if_pos hi]
  · intro hs
    rw [h2.2.1, h2.2.2.1, h3.2.1, h3.2.2.1, h3.2.2.2.1]
    simp [if_pos hs]
  · intro hs
    rw [h2.2.1, h2.2.2.1, h3.2.1, h3.2.2.1, h3.2.2.2.1]
    simp [if_neg (not_not_intro hs)]

/-- Witness for C3 at n = 1 with the all-zero input vector. -/
theorem vector_processEnergy_spec_witness :
    (Vector2.processEnergy 1 (fun _ => 0) (fun _ => 0) (fun _ => 0) (fun _ => 0)
      (fun _ => 0) 0).2 0 = 0 := by
  have h := (vector_processEnergy_spec 1 (by norm_num) (fun _ => 0) (fun _ => 0)
    (fun _ => 0) (fun _ => 0) (fun _ => 0) (fun _ => 0) (fun _ => 0) (fun _ => 0) 0).2.2
    (by simp)
  exact h.1

/-- C9: the outputs of `processEnergy` and the first `n` entries of its final
scratch buffer do not depend on the scratch contents at call entry: every
scratch entry below the channel count is overwritten with the squared sample
before any reduction reads it — in both the 2-axis and the 3-axis variant. -/
theorem vector_processEnergy_scratch_independent (n : ℕ) (h : 1 ≤ n)
    (ca co ch sq1 sq2 ins outs outs3 : ℕ → ℝ) (op : ℕ) :
    (Vector2.processEnergy n ca co sq1 ins outs op).2
        = (Vector2.processEnergy n ca co sq2 ins outs op).2 ∧
    (∀ i, i < n → (Vector2.processEnergy n ca co sq1 ins outs op).1 i
        = (Vector2.processEnergy n ca co sq2 ins outs op).1 i) ∧
    (Vector3.processEnergy n ca co ch sq1 ins outs3 op).2
        = (Vector3.processEnergy n ca co ch sq2 ins outs3 op).2 ∧
    (∀ i, i < n → (Vector3.processEnergy n ca co ch sq1 ins outs3 op).1 i
        = (Vector3.processEnergy n ca co ch sq2 ins outs3 op).1 i) := by
  have ha := processEnergy2_apply n h ca co sq1 ins outs op
  have hb := processEnergy2_apply n h ca co sq2 ins outs op
  have hc := processEnergy3_apply n h ca co ch sq1 ins outs3 op
  have hd := processEnergy3_apply n h ca co ch sq2 ins outs3 op
  refine ⟨?_, ?_, ?_, ?_⟩
  · funext j
    by_cases hj1 : j = op
    · subst hj1
      rw [ha.2.1, hb.2.1]
    · by_cases hj2 : j = op + 1
      · subst hj2
        rw [ha.2.2.1, hb.2.2.1]
      · rw [ha.2.2.2 j hj1 hj2, hb.2.2.2 j hj1 hj2]
  · intro i hi
    rw [ha.1 i, hb.1 i, if_pos hi, if_pos hi]
  · funext j
    by_cases hj1 : j = op
    · subst hj1
      rw [hc.2.1, hd.2.1]
    · by_cases hj2 : j = op + 1
      · subst hj2
        rw [hc.2.2.1, hd.2.2.1]
      · by_cases hj3 : j = op + 2
        · subst hj3
          rw [hc.2.2.2.1, hd.2.2.2.1]
        · rw [hc.2.2.2.2 j hj1 hj2 hj3, hd.2.2.2.2 j hj1 hj2 hj3]
  · intro i hi
    rw [hc.1 i, hd.1 i, if_pos hi, if_pos hi]

/-- Witness for C9 at n = 1 with two different prior scratch contents. -/
theorem vector_processEnergy_scratch_independent_witness :
    (Vector2.processEnergy 1 (fun _ => 0) (fun _ => 0) (fun _ => 1) (fun _ => 0)
        (fun _ => 0) 0).2
      = (Vector2.processEnergy 1 (fun _ => 0) (fun _ => 0) (fun _ => 2) (fun _ => 0)
        (fun _ => 0) 0).2 :=
  (vector_processEnergy_scratch_independent 1 (by norm_num) (fun _ => 0) (fun _ => 0)
    (fun _ => 0) (fun _ => 1) (fun _ => 2) (fun _ => 0) (fun _ => 0) (fun _ => 0) 0).1

/-- C4: for every input vector and both dimensionalities, `Vector::process`
writes exactly the velocity vector into the first 2 (resp. 3) output slots and
the energy vector into the following 2 (resp. 3) slots, identical to calling
`processVelocity` and then `processEnergy` with the output pointer offset, and
its scratch buffer ends up exactly as the separate `processEnergy` call leaves
it. -/
theorem vector_process_is_concatenation (n : ℕ) (h : 1 ≤ n)
    (ca co ch sq2 sq3 ins outs outs3 : ℕ → ℝ) (op : ℕ) :
    ((Vector2.process n ca co sq2 ins outs op).2 op
        = Vector2.processVelocity n ca co ins outs op op ∧
      (Vector2.process n ca co sq2 ins outs op).2 (op + 1)
        = Vector2.processVelocity n ca co ins outs op (op + 1) ∧
      (Vector2.process n ca co sq2 ins outs op).2 (op + 2)
        = (Vector2.processEnergy n ca co sq2 ins outs (op + 2)).2 (op + 2) ∧
      (Vector2.process n ca co sq2 ins outs op).2 (op + 3)
        = (Vector2.processEnergy n ca co sq2 ins outs (op + 2)).2 (op + 3) ∧
      (Vector2.process n ca co sq2 ins outs op).1
        = (Vector2.processEnergy n ca co sq2 ins outs (op + 2)).1) ∧
    ((Vector3.process n ca co ch sq3 ins outs3 op).2 op
        = Vector3.processVelocity n ca co ch ins outs3 op op ∧
      (Vector3.process n ca co ch sq3 ins outs3 op).2 (op + 1)
        = Vector3.processVelocity n ca co ch ins outs3 op (op + 1) ∧
      (Vector3.process n ca co ch sq3 ins outs3 op).2 (op + 2)
        = Vector3.processVelocity n ca co ch ins outs3 op (op + 2) ∧
      (Vector3.process n ca co ch sq3 ins outs3 op).2 (op + 3)
        = (Vector3.processEnergy n ca co ch sq3 ins outs3 (op + 3)).2 (op + 3) ∧
      (Vector3.process n ca co ch sq3 ins outs3 op).2 (op + 4)
        = (Vector3.processEnergy n ca co ch sq3 ins outs3 (op + 3)).2 (op + 4) ∧
      (Vector3.process n ca co ch sq3 ins outs3 op).2 (op + 5)
        = (Vector3.processEnergy n ca co ch sq3 ins outs3 (op + 3)).2 (op + 5) ∧
      (Vector3.process n ca co ch sq3 ins outs3 op).1
        = (Vector3.processEnergy n ca co ch sq3 ins outs3 (op + 3)).1) := by
  have hL2 := processEnergy2_apply n h ca co sq2 ins
    (Vector2.processVelocity n ca co ins outs op) (op + 2)
  have hR2 := processEnergy2_apply n h ca co sq2 ins outs (op + 2)
  have hL3 := processEnergy3_apply n h ca co ch sq3 ins
    (Vector3.processVelocity n ca co ch ins outs3 op) (op + 3)
  have hR3 := processEnergy3_apply n h ca co ch sq3 ins outs3 (op + 3)
  constructor
  · refine ⟨?_, ?_, ?_, ?_, ?_⟩
    · simp only [Vector2.process]
      rw [hL2.2.2.2 op (by omega) (by omega)]
    · simp only [Vector2.process]
      rw [hL2.2.2.2 (op + 1) (by omega) (by omega)]
    · simp only [Vector2.process]
      rw [hL2.2.1, hR2.2.1]
    · simp only [Vector2.process]
      rw [show op + 3 = op + 2 + 1 from by omega]
      rw [hL2.2.2.1, hR2.2.2.1]
    · simp only [Vector2.process]
      funext j
      rw [hL2.1 j, hR2.1 j]
  · refine ⟨?_, ?_, ?_, ?_, ?_, ?_, ?_⟩
    · simp only [Vector3.process]
      rw [hL3.2.2.2.2 op (by omega) (by omega) (by omega)]
    · simp only [Vector3.process]
      rw [hL3.2.2.2.2 (op + 1) (by omega) (by omega) (by omega)]
    · simp only [Vector3.process]
      rw [hL3.2.2.2.2 (op + 2) (by omega) (by omega) (by omega)]
    · simp only [Vector3.process]
      rw [hL3.2.1, hR3.2.1]
    · simp only [Vector3.process]
      rw [show op + 4 = op + 3 + 1 from by omega]
      rw [hL3.2.2.1, hR3.2.2.1]
    · simp only [Vector3.process]
      rw [show op + 5 = op + 3 + 2 from by omega]
      rw [hL3.2.2.2.1, hR3.2.2.2.1]
    · simp only [Vector3.process]
      funext j
      rw [hL3.1 j, hR3.1 j]

/-- Witness for C4 at n = 1 with zero caches and inputs. -/
theorem vector_process_is_concatenation_witness :
    (Vector2.process 1 (fun _ => 0) (fun _ => 0) (fun _ => 0) (fun _ => 0)
        (fun _ => 0) 0).2 0
      = Vector2.processVelocity 1 (fun _ => 0) (fun _ => 0) (fun _ => 0) (fun _ => 0) 0 0 :=
  (vector_process_is_concatenation 1 (by norm_num) (fun _ => 0) (fun _ => 0) (fun _ => 0)
    (fun _ => 0) (fun _ => 0) (fun _ => 0) (fun _ => 0) (fun _ => 0) 0).1.1

/-- C5: constructing a `Vector` with channel count 0 or a `Rotate` with order
0 is rejected at construction time with a construction error, before any
processing, and a positive count is bound exactly (never silently clamped
to 1). -/
theorem construct_rejects_zero_count :
    Vector.construct 0 = Except.error "the number of channels must be at least 1" ∧
    Rotate.construct 0 = Except.error "the order must be at least 1" ∧
    ∀ n : ℕ, 1 ≤ n → Vector.construct n = Except.ok n ∧ Rotate.construct n = Except.ok n := by
  refine ⟨rfl, rfl, ?_⟩
  intro n hn
  constructor
  · simp only [Vector.construct, ProcessorPlanewaves.construct,
      if_neg (show ¬ n = 0 by omega)]
  · simp only [Rotate.construct, ProcessorHarmonics.construct,
      if_neg (show ¬ n = 0 by omega)]

/-- Witness for C5: the count 2 is accepted and kept as 2, not clamped. -/
theorem construct_rejects_zero_count_witness :
    Vector.construct 2 = Except.ok 2 ∧ Rotate.construct 2 = Except.ok 2 :=
  construct_rejects_zero_count.2.2 2 (by norm_num)
